import Mathlib

/-!
Verification development for the snICKle audio-effects core
(`filter_library.py`).

The Python functions are shallowly embedded over `List ℝ`; float samples
are modelled as exact reals.  Python exceptions (`ValueError` on an
unrecognized shape or mode token, `IndexError` on an out-of-range numpy
index, `ZeroDivisionError`) are modelled by returning `Except String`.
Numpy reads and writes at an integer index follow numpy semantics:
negative indices in `[-n, -1]` wrap around, anything outside `[-n, n-1]`
raises `IndexError`.
-/

noncomputable section

namespace Snickle

/-- Python `int(x)` on a float: truncation toward zero. -/
def truncInt (x : ℝ) : ℤ :=
  if 0 ≤ x then ⌊x⌋ else -⌊-x⌋

/-- Numpy read `xs[i]` for an arbitrary integer index: negative indices in
`[-n, -1]` wrap to `n + i`; indices outside `[-n, n-1]` raise `IndexError`. -/
def npGet (xs : List ℝ) (i : ℤ) : Except String ℝ :=
  if i < -(xs.length : ℤ) ∨ (xs.length : ℤ) ≤ i then .error "IndexError"
  else if i < 0 then .ok (xs.getD (i + xs.length).toNat 0)
  else .ok (xs.getD i.toNat 0)

/-- Numpy write `xs[i] = v` for an arbitrary integer index, with the same
wrap-around and bounds policy as `npGet`. -/
def npSet (xs : List ℝ) (i : ℤ) (v : ℝ) : Except String (List ℝ) :=
  if i < -(xs.length : ℤ) ∨ (xs.length : ℤ) ≤ i then .error "IndexError"
  else if i < 0 then .ok (xs.set (i + xs.length).toNat v)
  else .ok (xs.set i.toNat v)

/-- Sequential effectful map: the Python `for` loops that fill an output
buffer index by index, aborting at the first raised exception. -/
def mapE {α β : Type} (f : α → Except String β) : List α → Except String (List β)
  | [] => .ok []
  | a :: as =>
    match f a with
    | .error e => .error e
    | .ok b =>
      match mapE f as with
      | .error e => .error e
      | .ok bs => .ok (b :: bs)

/-- `numpy.linspace start stop num` with the default `endpoint=True`:
`num` evenly spaced points from `start` to `stop` inclusive; a single
point is `start`; zero points is the empty list. -/
def linspace (start stop : ℝ) (num : ℕ) : List ℝ :=
  (List.range num).map (fun k : ℕ =>
    if num ≤ 1 then start
    else start + (stop - start) * (k : ℝ) / ((num : ℝ) - 1))

/-- `scipy.signal.sawtooth t` (default width 1): periodic with period `2π`,
rising linearly from `-1` at phase `0` to `1` at the end of the period. -/
def sawtoothWave (t : ℝ) : ℝ :=
  2 * Int.fract (t / (2 * Real.pi)) - 1

/-- `scipy.signal.sawtooth t 0.5`: triangle wave, rising from `-1` at phase
`0` to `1` at half period, then falling back to `-1`. -/
def triangleWave (t : ℝ) : ℝ :=
  if Int.fract (t / (2 * Real.pi)) < 1 / 2 then
    4 * Int.fract (t / (2 * Real.pi)) - 1
  else
    3 - 4 * Int.fract (t / (2 * Real.pi))

/-- The `if shape == 'triangle' / 'saw' / 'sin'` dispatch of
`_low_frequency_oscillator` (reached only after shape validation). -/
def waveOf (shape : String) : ℝ → ℝ :=
  if shape = "triangle" then triangleWave
  else if shape = "saw" then sawtoothWave
  else Real.sin

/-- The `shapes` list used for input sanitization in
`_low_frequency_oscillator`. -/
def shapes : List String := ["triangle", "sin", "saw"]

/-- The `ValueError` message raised on an unrecognized shape. -/
def invalidShapeMsg : String := "Invalid shape. Expected triangle, sin or saw."

/-- `amplitude = math.floor(amplitude * samplerate)`: the oscillator
amplitude converted from seconds to a whole sample count. -/
def oscAmp (amplitude : ℝ) (samplerate : ℕ) : ℝ :=
  ((⌊amplitude * (samplerate : ℝ)⌋ : ℤ) : ℝ)

/-- The oscillator samples: `amplitude + amplitude * wave(2π·t·freq)` over
`sampletimes = linspace 0 (length // samplerate) length`. -/
def lfoList (amplitude freq : ℝ) (shape : String) (length samplerate : ℕ) : List ℝ :=
  (linspace 0 ((length / samplerate : ℕ) : ℝ) length).map
    (fun t => oscAmp amplitude samplerate
      + oscAmp amplitude samplerate * waveOf shape (2 * Real.pi * t * freq))

/-- `_low_frequency_oscillator` from `filter_library.py`: validates the
shape token, converts the amplitude to samples, and evaluates the chosen
wave over the sample-time axis.  `samplerate = 0` would raise a
`ZeroDivisionError` in `length // samplerate`. -/
def low_frequency_oscillator (amplitude freq : ℝ) (shape : String)
    (length : ℕ) (samplerate : ℕ := 44100) : Except String (List ℝ) :=
  if shape ∉ shapes then .error invalidShapeMsg
  else if samplerate = 0 then .error "ZeroDivisionError"
  else .ok (lfoList amplitude freq shape length samplerate)

/-- `_trim_convolution` from `filter_library.py`: deletes the indices
`half_length .. length-1` where `half_length = (length+1)//2`, i.e. keeps
the first `(length+1)/2` entries. -/
def trim_convolution (audioin : List ℝ) : List ℝ :=
  audioin.take ((audioin.length + 1) / 2)

/-- `scipy.signal.fftconvolve a b`: full linear convolution, of length
`len a + len b - 1`, with `c[k] = Σ_i a[i]·b[k-i]`. -/
def convolve (a b : List ℝ) : List ℝ :=
  (List.range (a.length + b.length - 1)).map (fun k =>
    ∑ i in Finset.range (k + 1), a.getD i 0 * b.getD (k - i) 0)

/-- The comb-building loop of `delay_effect`: starting from `comb`, for each
`j` in the remaining tap list, if `delay * j <= n` (the source's guard,
where `n = len(audioin)`) write `comb[delay * j] = exp(-j)`. -/
def buildCombAux (n : ℕ) (d : ℤ) : List ℕ → List ℝ → Except String (List ℝ)
  | [], comb => .ok comb
  | j :: js, comb =>
    if d * (j : ℤ) ≤ (n : ℤ) then
      match npSet comb (d * (j : ℤ)) (Real.exp (-(j : ℝ))) with
      | .error e => .error e
      | .ok comb2 => buildCombAux n d js comb2
    else buildCombAux n d js comb

/-- The full comb of `delay_effect`: `comb = np.zeros(len(audioin))`, then
the tap loop `for j in range(echoes + 1)`. -/
def buildComb (n : ℕ) (echoes : ℕ) (d : ℤ) : Except String (List ℝ) :=
  buildCombAux n d (List.range (echoes + 1)) (List.replicate n 0)

/-- `delay_effect` from `filter_library.py`: convert the delay to samples by
flooring, build the decaying Dirac comb, convolve, and trim back to the
input length. -/
def delay_effect (audioin : List ℝ) (echoes : ℕ) (delay : ℝ)
    (samplerate : ℕ := 44100) : Except String (List ℝ) :=
  match buildComb audioin.length echoes ⌊delay * (samplerate : ℝ)⌋ with
  | .error e => .error e
  | .ok comb => .ok (trim_convolution (convolve audioin comb))

/-- The loop body of `flanger_effect` at index `j`: if `j - M[j] < 0` clamp
the delayed read to `audioin[0]`, else read `audioin[j - int(M[j])]`. -/
def flangerStep (audioin delay_lfo : List ℝ) (j : ℕ) : Except String ℝ :=
  if (j : ℝ) - delay_lfo.getD j 0 < 0 then
    .ok (audioin.getD j 0 + audioin.getD 0 0)
  else
    match npGet audioin ((j : ℤ) - truncInt (delay_lfo.getD j 0)) with
    | .error e => .error e
    | .ok v => .ok (audioin.getD j 0 + v)

/-- `flanger_effect` with the sample rate of its oscillator call made
explicit (the source passes none, so the default applies; see
`flanger_effect`). -/
def flanger_effect_at (audioin : List ℝ) (depth sweep : ℝ) (shape : String)
    (samplerate : ℕ) : Except String (List ℝ) :=
  match low_frequency_oscillator depth sweep shape audioin.length samplerate with
  | .error e => .error e
  | .ok delay_lfo => mapE (flangerStep audioin delay_lfo) (List.range audioin.length)

/-- `flanger_effect` from `filter_library.py`: builds `M[n]` with
`_low_frequency_oscillator(depth, sweep, shape, length)` — no sample rate
argument, so the oscillator's default `44100` is used — then produces
`y[j] = x[j] + x[j - M[j]]` with the lower-bound clamp. -/
def flanger_effect (audioin : List ℝ) (depth sweep : ℝ)
    (shape : String := "triangle") : Except String (List ℝ) :=
  flanger_effect_at audioin depth sweep shape 44100

/-- The inner loop body of `chorus_effect`, identical in the source to the
flanger's loop body. -/
def chorusStep (audioin lfo : List ℝ) (j : ℕ) : Except String ℝ :=
  if (j : ℝ) - lfo.getD j 0 < 0 then
    .ok (audioin.getD j 0 + audioin.getD 0 0)
  else
    match npGet audioin ((j : ℤ) - truncInt (lfo.getD j 0)) with
    | .error e => .error e
    | .ok v => .ok (audioin.getD j 0 + v)

/-- The `for lfo in lfo_vector` loop of `chorus_effect`: each voice writes
`audioout[j] = audioin[j] + audioin[j - int(lfo[j])]` at every index `j`,
overwriting whatever the previous voice stored there, so the buffer left
behind by each voice is replaced wholesale by the next. -/
def chorusVoices (audioin : List ℝ) : List (List ℝ) → List ℝ → Except String (List ℝ)
  | [], audioout => .ok audioout
  | lfo :: rest, _ =>
    match mapE (chorusStep audioin lfo) (List.range audioin.length) with
    | .error e => .error e
    | .ok out2 => chorusVoices audioin rest out2

/-- The `ValueError` message raised on an unrecognized mode. -/
def invalidModeMsg : String := "Invalid mode. Expected deterministic or gaussian."

/-- `chorus_effect` with the oscillator sample rate made explicit (see
`chorus_effect`).  The `gaussianDraw` argument stands for the vector that
`np.random.normal(sweepmean, sweepsd, voices)` returns in gaussian mode; it
is supplied as an oracle so the random draw stays outside the model, and in
deterministic mode it is ignored. -/
def chorus_effect_at (audioin : List ℝ) (voices : ℕ) (mode : String)
    (depth : ℝ) (shape : String) (maxsweep : ℝ) (gaussianDraw : List ℝ)
    (samplerate : ℕ) : Except String (List ℝ) :=
  if mode ∉ ["deterministic", "gaussian"] then .error invalidModeMsg
  else
    match mapE
      (fun sweep => low_frequency_oscillator depth sweep shape audioin.length samplerate)
      (if mode = "deterministic" then linspace 0 maxsweep voices else gaussianDraw) with
    | .error e => .error e
    | .ok lfo_vector => chorusVoices audioin lfo_vector (List.replicate audioin.length 0)

/-- `chorus_effect` from `filter_library.py`: validates the mode, builds the
per-voice sweep vector (`np.linspace(0, maxsweep, voices)` in deterministic
mode, a normal draw in gaussian mode), builds one LFO per voice with
`_low_frequency_oscillator(depth, sweep, shape, length)` — again no sample
rate argument, so 44100 — and runs the per-voice loop on
`audioout = np.zeros(length)`. -/
def chorus_effect (audioin : List ℝ) (voices : ℕ) (mode : String)
    (depth : ℝ) (shape : String := "triangle") (maxsweep : ℝ := 0)
    (gaussianDraw : List ℝ := []) : Except String (List ℝ) :=
  chorus_effect_at audioin voices mode depth shape maxsweep gaussianDraw 44100

/-- The value of the `k`-th modulated copy at index `j` as the chorus
documentation describes it: `x[j - M_k[j]]`, with the flanger's lower-bound
clamp to `x[0]`. -/
def copySample (audioin lfo : List ℝ) (j : ℕ) : ℝ :=
  if (j : ℝ) - lfo.getD j 0 < 0 then audioin.getD 0 0
  else audioin.getD ((j : ℤ) - truncInt (lfo.getD j 0)).toNat 0

/-- The combination policy stated in the chorus docstring,
`y[n] = 1/N·(x[n] + x[n - M_1[n]] + ... + x[n - M_N[n]])`: the mean of the
original signal plus all `N` modulated copies. -/
def chorusSpecMean (audioin : List ℝ) (lfos : List (List ℝ)) : List ℝ :=
  (List.range audioin.length).map (fun j =>
    (audioin.getD j 0 + (lfos.map (fun lfo => copySample audioin lfo j)).sum)
      / (lfos.length : ℝ))

/-! ### Helper lemmas -/

theorem mapE_ok_length {α β : Type} {f : α → Except String β} :
    ∀ {l : List α} {ys : List β}, mapE f l = .ok ys → ys.length = l.length := by
  intro l
  induction l with
  | nil => intro ys h; simp [mapE] at h; simp [← h]
  | cons a as ih =>
    intro ys h
    simp only [mapE] at h
    cases hfa : f a with
    | error e => rw [hfa] at h; exact absurd h (by simp)
    | ok b =>
      rw [hfa] at h
      cases hrec : mapE f as with
      | error e => rw [hrec] at h; exact absurd h (by simp)
      | ok bs =>
        rw [hrec] at h
        simp only [Except.ok.injEq] at h
        subst h
        simp [ih hrec]

theorem mapE_ok_of_forall {α β : Type} {f : α → Except String β} :
    ∀ {l : List α}, (∀ a ∈ l, ∃ b, f a = .ok b) → ∃ ys, mapE f l = .ok ys := by
  intro l
  induction l with
  | nil => intro _; exact ⟨[], rfl⟩
  | cons a as ih =>
    intro h
    obtain ⟨b, hb⟩ := h a (by simp)
    obtain ⟨bs, hbs⟩ := ih (fun x hx => h x (by simp [hx]))
    exact ⟨b :: bs, by simp [mapE, hb, hbs]⟩

theorem mapE_ok_getD {α β : Type} {f : α → Except String β} (d : α) (e : β) :
    ∀ {l : List α} {ys : List β}, mapE f l = .ok ys →
      ∀ i, i < l.length → f (l.getD i d) = .ok (ys.getD i e) := by
  intro l
  induction l with
  | nil => intro ys _ i hi; simp at hi
  | cons a as ih =>
    intro ys h i hi
    simp only [mapE] at h
    cases hfa : f a with
    | error er => rw [hfa] at h; exact absurd h (by simp)
    | ok b =>
      rw [hfa] at h
      cases hrec : mapE f as with
      | error er => rw [hrec] at h; exact absurd h (by simp)
      | ok bs =>
        rw [hrec] at h
        simp only [Except.ok.injEq] at h
        subst h
        cases i with
        | zero => simpa using hfa
        | succ i =>
          simp only [List.getD_cons_succ]
          exact ih hrec i (by simpa using hi)

theorem linspace_length (a b : ℝ) (n : ℕ) : (linspace a b n).length = n := by
  unfold linspace
  rw [List.length_map, List.length_range]

theorem linspace_getD_zero (a b : ℝ) {n : ℕ} (hn : 1 ≤ n) :
    (linspace a b n).getD 0 0 = a := by
  unfold linspace
  rw [List.getD_eq_getElem?_getD, List.getElem?_map, List.getElem?_range (by omega)]
  split <;> simp

theorem sawtoothWave_bounds (t : ℝ) : -1 ≤ sawtoothWave t ∧ sawtoothWave t ≤ 1 := by
  unfold sawtoothWave
  have h1 := Int.fract_nonneg (t / (2 * Real.pi))
  have h2 := Int.fract_lt_one (t / (2 * Real.pi))
  constructor <;> nlinarith

theorem triangleWave_bounds (t : ℝ) : -1 ≤ triangleWave t ∧ triangleWave t ≤ 1 := by
  unfold triangleWave
  have h1 := Int.fract_nonneg (t / (2 * Real.pi))
  have h2 := Int.fract_lt_one (t / (2 * Real.pi))
  split <;> constructor <;> nlinarith

theorem waveOf_bounds (s : String) (t : ℝ) : -1 ≤ waveOf s t ∧ waveOf s t ≤ 1 := by
  unfold waveOf
  split
  · exact triangleWave_bounds t
  · split
    · exact sawtoothWave_bounds t
    · exact ⟨Real.neg_one_le_sin t, Real.sin_le_one t⟩

theorem oscAmp_nonneg {a : ℝ} (sr : ℕ) (h : 0 ≤ a) : 0 ≤ oscAmp a sr := by
  unfold oscAmp
  have : (0 : ℝ) ≤ a * (sr : ℝ) := mul_nonneg h (Nat.cast_nonneg sr)
  exact_mod_cast Int.floor_nonneg.mpr this

theorem lfoList_length (a f : ℝ) (sh : String) (n sr : ℕ) :
    (lfoList a f sh n sr).length = n := by
  simp [lfoList, linspace_length]

theorem lfoList_bounds {amp : ℝ} (h : 0 ≤ amp) (f : ℝ) (sh : String) (n sr : ℕ) :
    ∀ v ∈ lfoList amp f sh n sr, 0 ≤ v ∧ v ≤ 2 * oscAmp amp sr := by
  intro v hv
  unfold lfoList at hv
  obtain ⟨t, _, rfl⟩ := List.mem_map.mp hv
  have hA := oscAmp_nonneg sr h
  have hw := waveOf_bounds sh (2 * Real.pi * t * f)
  constructor <;> nlinarith [hw.1, hw.2]

theorem osc_eq {sh : String} (h1 : sh ∈ shapes) {sr : ℕ} (h2 : sr ≠ 0)
    (a f : ℝ) (n : ℕ) :
    low_frequency_oscillator a f sh n sr = .ok (lfoList a f sh n sr) := by
  simp [low_frequency_oscillator, h1, h2]

theorem osc_err {sh : String} (h1 : sh ∉ shapes) (a f : ℝ) (n sr : ℕ) :
    low_frequency_oscillator a f sh n sr = .error invalidShapeMsg := by
  simp [low_frequency_oscillator, h1]

theorem npGet_ok {xs : List ℝ} {i : ℤ} (h0 : 0 ≤ i) (hn : i < (xs.length : ℤ)) :
    npGet xs i = .ok (xs.getD i.toNat 0) := by
  unfold npGet
  rw [if_neg, if_neg (by omega)]
  omega

theorem npSet_ok_length {xs ys : List ℝ} {i : ℤ} {v : ℝ}
    (h : npSet xs i v = .ok ys) : ys.length = xs.length := by
  unfold npSet at h
  split at h
  · exact absurd h (by simp)
  · split at h <;> simp only [Except.ok.injEq] at h <;> simp [← h]

theorem buildCombAux_ok_length {n : ℕ} {d : ℤ} :
    ∀ {js : List ℕ} {comb comb2 : List ℝ},
      buildCombAux n d js comb = .ok comb2 → comb2.length = comb.length := by
  intro js
  induction js with
  | nil => intro comb comb2 h; simp only [buildCombAux, Except.ok.injEq] at h; simp [← h]
  | cons j js ih =>
    intro comb comb2 h
    simp only [buildCombAux] at h
    split at h
    · cases hset : npSet comb (d * (j : ℤ)) (Real.exp (-(j : ℝ))) with
      | error e => rw [hset] at h; exact absurd h (by simp)
      | ok cmb =>
        rw [hset] at h
        rw [ih h, npSet_ok_length hset]
    · exact ih h

theorem chorusVoices_ok_length {audioin : List ℝ} :
    ∀ {lfos : List (List ℝ)} {out out2 : List ℝ},
      out.length = audioin.length →
      chorusVoices audioin lfos out = .ok out2 → out2.length = audioin.length := by
  intro lfos
  induction lfos with
  | nil =>
    intro out out2 hlen h
    simp only [chorusVoices, Except.ok.injEq] at h
    simp [← h, hlen]
  | cons lfo rest ih =>
    intro out out2 hlen h
    simp only [chorusVoices] at h
    cases hmap : mapE (chorusStep audioin lfo) (List.range audioin.length) with
    | error e => rw [hmap] at h; exact absurd h (by simp)
    | ok o2 =>
      rw [hmap] at h
      exact ih (by simpa using mapE_ok_length hmap) h

theorem convolve_length (a b : List ℝ) :
    (convolve a b).length = a.length + b.length - 1 := by
  simp [convolve]

theorem set_zero_replicate_getD {n : ℕ} (hn : 1 ≤ n) (v : ℝ) (m : ℕ) :
    ((List.replicate n (0 : ℝ)).set 0 v).getD m 0 = if m = 0 then v else 0 := by
  rw [List.getD_eq_getElem?_getD]
  rcases Nat.eq_zero_or_pos m with hm | hm
  · subst hm
    rw [List.getElem?_set_self (by simpa using hn)]
    simp
  · rw [List.getElem?_set_ne (by omega)]
    rw [List.getElem?_replicate]
    have hm0 : m ≠ 0 := by omega
    split <;> simp [hm0]

/-! ### Claims -/

/-- C3: for every odd-length input sequence of length `2n-1`,
`_trim_convolution` returns exactly the first `n` elements (indices
`0..n-1`) of the input, each unchanged, computed via
`half_length = (length+1)//2`; it never performs symmetric truncation. -/
theorem C3_trim_keeps_first_half (x : List ℝ) (n : ℕ) (hn : 1 ≤ n)
    (hlen : x.length = 2 * n - 1) :
    trim_convolution x = x.take n ∧ (trim_convolution x).length = n ∧
      ∀ i, i < n → (trim_convolution x).getD i 0 = x.getD i 0 := by
  have hhalf : (x.length + 1) / 2 = n := by omega
  have htake : trim_convolution x = x.take n := by
    unfold trim_convolution; rw [hhalf]
  refine ⟨htake, ?_, ?_⟩
  · rw [htake, List.length_take]; omega
  · intro i hi
    rw [htake, List.getD_eq_getElem?_getD, List.getD_eq_getElem?_getD,
      List.getElem?_take_of_lt hi]

/-- Concrete instance of C3 at `x = [1,2,3]`, `n = 2`. -/
theorem C3_witness :
    (1 ≤ 2 ∧ ([1, 2, 3] : List ℝ).length = 2 * 2 - 1) ∧
      trim_convolution [1, 2, 3] = ([1, 2, 3] : List ℝ).take 2 :=
  ⟨⟨by omega, rfl⟩, (C3_trim_keeps_first_half [1, 2, 3] 2 (by omega) rfl).1⟩

/-- C2: for every valid input buffer and parameters, whenever
`delay_effect`, `flanger_effect` or `chorus_effect` returns an output
buffer, it has exactly the length of the input buffer. -/
theorem C2_length_preservation (x y : List ℝ) (echoes : ℕ) (dl : ℝ) (sr : ℕ)
    (depth sweep : ℝ) (sh : String) (voices : ℕ) (mode : String) (ms : ℝ)
    (gd : List ℝ) :
    (delay_effect x echoes dl sr = .ok y → y.length = x.length) ∧
    (flanger_effect x depth sweep sh = .ok y → y.length = x.length) ∧
    (chorus_effect x voices mode depth sh ms gd = .ok y → y.length = x.length) := by
  refine ⟨?_, ?_, ?_⟩
  · intro h
    unfold delay_effect at h
    cases hcomb : buildComb x.length echoes ⌊dl * (sr : ℝ)⌋ with
    | error e => rw [hcomb] at h; exact absurd h (by simp)
    | ok comb =>
      rw [hcomb] at h
      simp only [Except.ok.injEq] at h
      subst h
      have hcl : comb.length = x.length := by
        unfold buildComb at hcomb
        simpa using buildCombAux_ok_length hcomb
      unfold trim_convolution
      rw [List.length_take, convolve_length, hcl]
      omega
  · intro h
    unfold flanger_effect flanger_effect_at at h
    cases hosc : low_frequency_oscillator depth sweep sh x.length 44100 with
    | error e => rw [hosc] at h; exact absurd h (by simp)
    | ok lfo =>
      rw [hosc] at h
      simpa using mapE_ok_length h
  · intro h
    unfold chorus_effect chorus_effect_at at h
    split at h
    · exact absurd h (by simp)
    · cases hlfos : mapE
          (fun sweep =>
            low_frequency_oscillator depth sweep sh x.length 44100)
          (if mode = "deterministic" then linspace 0 ms voices else gd) with
      | error e => rw [hlfos] at h; exact absurd h (by simp)
      | ok lfo_vector =>
        rw [hlfos] at h
        exact chorusVoices_ok_length (by simp) h

/-- Concrete instance of C2: the delay effect at `x = [1]`, `echoes = 0`,
`delay = 0`, `samplerate = 1` returns a buffer, and its length is 1. -/
theorem C2_witness :
    delay_effect [1] 0 0 1 = .ok [1] ∧ ([1] : List ℝ).length = ([1] : List ℝ).length := by
  have h : delay_effect [1] 0 0 1 = .ok [1] := by
    have hrange : List.range 1 = [0] := rfl
    unfold delay_effect buildComb
    rw [hrange]
    unfold buildCombAux
    norm_num [npSet, Real.exp_zero]
    unfold buildCombAux
    norm_num [trim_convolution, convolve, Finset.sum_range_one]
    rw [hrange]
    norm_num [Finset.sum_range_one]
  exact ⟨h, (C2_length_preservation [1] [1] 0 0 1 0 0 "sin" 1 "x" 0 []).1 h⟩

theorem npSet_ok {xs : List ℝ} {i : ℤ} (h0 : 0 ≤ i) (hn : i < (xs.length : ℤ))
    (v : ℝ) : npSet xs i v = .ok (xs.set i.toNat v) := by
  unfold npSet
  rw [if_neg (by omega), if_neg (by omega)]

theorem convolve_delta (x : List ℝ) (hx : 1 ≤ x.length) :
    trim_convolution (convolve x ((List.replicate x.length (0 : ℝ)).set 0 1)) = x := by
  set n := x.length with hn
  have hconv : convolve x ((List.replicate n (0 : ℝ)).set 0 1)
      = (List.range (n + n - 1)).map (fun k => x.getD k 0) := by
    unfold convolve
    rw [List.length_set, List.length_replicate, ← hn]
    apply List.map_congr_left
    intro k _
    rw [Finset.sum_eq_single k]
    · rw [set_zero_replicate_getD hx 1 (k - k)]
      simp
    · intro i hi hne
      rw [set_zero_replicate_getD hx 1 (k - i)]
      have hik : i < k + 1 := Finset.mem_range.mp hi
      rw [if_neg (by omega), mul_zero]
    · intro hk
      exact absurd (Finset.self_mem_range_succ k) hk
  rw [hconv]
  unfold trim_convolution
  rw [List.length_map, List.length_range]
  have h2 : (n + n - 1 + 1) / 2 = n := by omega
  rw [h2, ← List.map_take, List.take_range]
  have hmin : min n (n + n - 1) = n := by omega
  rw [hmin]
  apply List.ext_getElem
  · simp [hn]
  · intro i h1 h2
    simp [List.getD_eq_getElem?_getD, List.getElem?_eq_getElem h2]

/-- C6: `delay_effect` with `echoes = 0` is the identity on any (non-empty)
input buffer, for every delay and sample rate: the comb reduces to a single
unit impulse at index 0. -/
theorem C6_echo_identity (x : List ℝ) (dl : ℝ) (sr : ℕ) (hx : 1 ≤ x.length) :
    delay_effect x 0 dl sr = .ok x := by
  have hcomb : buildComb x.length 0 ⌊dl * (sr : ℝ)⌋
      = .ok ((List.replicate x.length (0 : ℝ)).set 0 1) := by
    unfold buildComb
    rw [show List.range (0 + 1) = [0] from rfl]
    unfold buildCombAux
    simp only [Nat.cast_zero, mul_zero, neg_zero, Real.exp_zero]
    rw [if_pos (by omega)]
    rw [npSet_ok le_rfl (by simp; omega) 1]
    simp [buildCombAux]
  unfold delay_effect
  rw [hcomb]
  simp only [convolve_delta x hx]

/-- Concrete instance of C6 at `x = [1,2]`, `delay = 5`, `samplerate = 1`. -/
theorem C6_witness :
    1 ≤ ([1, 2] : List ℝ).length ∧ delay_effect [1, 2] 0 5 1 = .ok [1, 2] :=
  ⟨by simp, C6_echo_identity [1, 2] 5 1 (by simp)⟩

/-- C4 is a code bug: the comb-building guard is `delay * j <= len(audioin)`
rather than `<`, so a tap whose index equals the buffer length is not
dropped — the write `comb[delay * j]` raises `IndexError`.  Here
`audioin = [1]`, `echoes = 1`, `delay = 1`, `samplerate = 1` puts the second
tap at index 1 of a length-1 comb. -/
theorem C4_tap_at_length_raises :
    delay_effect [1] 1 1 1 = .error "IndexError" := by
  have hrange : List.range 2 = [0, 1] := rfl
  unfold delay_effect buildComb
  rw [hrange]
  norm_num [buildCombAux, npSet, Real.exp_zero]

/-- C7: for every valid shape, every depth `≥ 0`, every frequency, length
and positive sample rate, every value produced by
`_low_frequency_oscillator` lies in `[0, 2·amplitude]` with
`amplitude = ⌊depth · samplerate⌋`; in particular it is non-negative. -/
theorem C7_oscillator_range (depth freq : ℝ) (sh : String) (n sr : ℕ)
    (l : List ℝ) (hsh : sh ∈ shapes) (hd : 0 ≤ depth) (hsr : 0 < sr)
    (hosc : low_frequency_oscillator depth freq sh n sr = .ok l) :
    ∀ v ∈ l, 0 ≤ v ∧ v ≤ 2 * ((⌊depth * (sr : ℝ)⌋ : ℤ) : ℝ) := by
  rw [osc_eq hsh (by omega) depth freq n] at hosc
  simp only [Except.ok.injEq] at hosc
  subst hosc
  exact lfoList_bounds hd freq sh n sr

/-- Concrete instance of C7: the sine oscillator at depth 0 over one sample
produces `[0]`, which lies in `[0, 0]`. -/
theorem C7_witness :
    ("sin" ∈ shapes ∧ 0 ≤ (0 : ℝ) ∧ 0 < 1 ∧
        low_frequency_oscillator 0 0 "sin" 1 1 = .ok [0]) ∧
      (0 ≤ (0 : ℝ) ∧ (0 : ℝ) ≤ 2 * ((⌊(0 : ℝ) * ((1 : ℕ) : ℝ)⌋ : ℤ) : ℝ)) := by
  have hosc : low_frequency_oscillator 0 0 "sin" 1 1 = .ok [0] := by
    rw [osc_eq (by simp [shapes]) one_ne_zero 0 0 1]
    norm_num [lfoList, linspace, oscAmp, List.range_succ]
  exact ⟨⟨by simp [shapes], le_rfl, one_pos, hosc⟩,
    C7_oscillator_range 0 0 "sin" 1 1 [0] (by simp [shapes]) le_rfl one_pos hosc
      0 (by simp)⟩

/-- C9: an unrecognized shape token makes the oscillator fail with the
invalid-shape `ValueError`, and `flanger_effect` and deterministic-mode
`chorus_effect` (with at least one voice) propagate that error: no output
buffer is produced. -/
theorem C9_invalid_shape_fails (sh : String) (hsh : sh ∉ shapes)
    (x : List ℝ) (amp f depth sweep ms : ℝ) (n sr voices : ℕ) (gd : List ℝ)
    (hv : 1 ≤ voices) :
    low_frequency_oscillator amp f sh n sr = .error invalidShapeMsg ∧
    flanger_effect x depth sweep sh = .error invalidShapeMsg ∧
    chorus_effect x voices "deterministic" depth sh ms gd = .error invalidShapeMsg := by
  refine ⟨osc_err hsh amp f n sr, ?_, ?_⟩
  · unfold flanger_effect flanger_effect_at
    rw [osc_err hsh]
  · unfold chorus_effect chorus_effect_at
    rw [if_neg (by simp), if_pos rfl]
    have hne : linspace 0 ms voices ≠ [] := by
      intro hnil
      have hl := linspace_length 0 ms voices
      rw [hnil] at hl
      simp at hl
      omega
    obtain ⟨t, rest, hcons⟩ := List.exists_cons_of_ne_nil hne
    rw [hcons]
    simp only [mapE]
    rw [osc_err hsh]

/-- Concrete instance of C9 at shape token `"square"`. -/
theorem C9_witness :
    ("square" ∉ shapes ∧ 1 ≤ 1) ∧
      flanger_effect [1] 0 0 "square" = .error invalidShapeMsg ∧
      chorus_effect [1] 1 "deterministic" 0 "square" 0 [] = .error invalidShapeMsg := by
  have h := C9_invalid_shape_fails "square" (by simp [shapes]) [1] 0 0 0 0 0 1 1 1
    [] le_rfl
  exact ⟨⟨by simp [shapes], le_rfl⟩, h.2.1, h.2.2⟩

/-- C10: `flanger_effect` and `chorus_effect` take no sample-rate parameter;
the oscillator they build always uses the fixed default sample rate 44100,
and (for a valid shape) the depth-in-seconds argument becomes the amplitude
`⌊depth · 44100⌋` samples, whatever the true sample rate of the signal. -/
theorem C10_fixed_default_samplerate :
    (∀ (x : List ℝ) (d s : ℝ) (sh : String),
      flanger_effect x d s sh = flanger_effect_at x d s sh 44100) ∧
    (∀ (x : List ℝ) (v : ℕ) (mo : String) (d : ℝ) (sh : String) (ms : ℝ)
      (gd : List ℝ),
      chorus_effect x v mo d sh ms gd = chorus_effect_at x v mo d sh ms gd 44100) ∧
    (∀ (d f : ℝ) (sh : String) (n : ℕ), sh ∈ shapes →
      low_frequency_oscillator d f sh n 44100 = .ok (lfoList d f sh n 44100)) ∧
    (∀ d : ℝ, oscAmp d 44100 = ((⌊d * (44100 : ℝ)⌋ : ℤ) : ℝ)) := by
  refine ⟨fun _ _ _ _ => rfl, fun _ _ _ _ _ _ _ => rfl, ?_, fun _ => rfl⟩
  intro d f sh n hsh
  exact osc_eq hsh (by norm_num) d f n

/-- Concrete instance of C10 at shape `"sin"`. -/
theorem C10_witness :
    "sin" ∈ shapes ∧
      low_frequency_oscillator 0 0 "sin" 0 44100 = .ok (lfoList 0 0 "sin" 0 44100) ∧
      flanger_effect [] 0 0 "sin" = flanger_effect_at [] 0 0 "sin" 44100 :=
  ⟨by simp [shapes],
    C10_fixed_default_samplerate.2.2.1 0 0 "sin" 0 (by simp [shapes]),
    C10_fixed_default_samplerate.1 [] 0 0 "sin"⟩

/-- C8: deterministic-mode chorus with a single voice coincides with a
single flanger call at zero sweep, for every input, depth, shape and
`maxsweep`. -/
theorem C8_chorus_degenerates_to_flanger (x : List ℝ) (depth : ℝ) (sh : String)
    (ms : ℝ) (gd : List ℝ) :
    chorus_effect x 1 "deterministic" depth sh ms gd = flanger_effect x depth 0 sh := by
  unfold chorus_effect chorus_effect_at flanger_effect flanger_effect_at
  rw [if_neg (by simp), if_pos rfl]
  have hls : linspace 0 ms 1 = [0] := by
    unfold linspace
    simp [List.range_succ]
  rw [hls]
  simp only [mapE]
  cases hosc : low_frequency_oscillator depth 0 sh x.length 44100 with
  | error e => rfl
  | ok lfo =>
    simp only [chorusVoices]
    rw [show chorusStep x lfo = flangerStep x lfo from rfl]
    cases hmap : mapE (flangerStep x lfo) (List.range x.length) with
    | error e => rfl
    | ok o => simp only [chorusVoices]

theorem truncInt_of_nonneg {m : ℝ} (h : 0 ≤ m) : truncInt m = ⌊m⌋ := by
  unfold truncInt
  rw [if_pos h]

theorem flangerStep_ok_of_nonneg {x lfo : List ℝ} {j : ℕ}
    (hj : j < x.length) (hm : 0 ≤ lfo.getD j 0) :
    ∃ r, flangerStep x lfo j = .ok r := by
  unfold flangerStep
  by_cases hcl : (j : ℝ) - lfo.getD j 0 < 0
  · rw [if_pos hcl]
    exact ⟨_, rfl⟩
  · rw [if_neg hcl]
    have hle : lfo.getD j 0 ≤ (j : ℝ) := by linarith [not_lt.mp hcl]
    have hfl : ⌊lfo.getD j 0⌋ ≤ (j : ℤ) := by
      have := Int.floor_le_floor hle
      rwa [Int.floor_natCast] at this
    have hfl0 : 0 ≤ ⌊lfo.getD j 0⌋ := Int.floor_nonneg.mpr hm
    rw [truncInt_of_nonneg hm,
      npGet_ok (by omega) (by omega)]
    exact ⟨_, rfl⟩

theorem flangerStep_zero {x lfo : List ℝ} (hx : 0 < x.length)
    (hm : 0 ≤ lfo.getD 0 0) :
    flangerStep x lfo 0 = .ok (x.getD 0 0 + x.getD 0 0) := by
  unfold flangerStep
  rcases lt_or_eq_of_le hm with hpos | hzero
  · rw [if_pos (by push_cast; linarith)]
  · rw [if_neg (by rw [← hzero]; simp), ← hzero, truncInt_of_nonneg le_rfl]
    rw [Int.floor_zero, sub_zero, Nat.cast_zero, npGet_ok le_rfl (by omega)]
    rfl

/-- C5: for every non-empty input buffer, every depth `≥ 0`, every sweep
frequency and every valid shape, `flanger_effect` succeeds and its first
output sample equals twice the first input sample. -/
theorem C5_flanger_first_sample (x : List ℝ) (depth sweep : ℝ) (sh : String)
    (hsh : sh ∈ shapes) (hd : 0 ≤ depth) (hx : x ≠ []) :
    ∃ y, flanger_effect x depth sweep sh = .ok y ∧
      y.getD 0 0 = 2 * x.getD 0 0 := by
  have hn : 0 < x.length := List.length_pos.mpr hx
  unfold flanger_effect flanger_effect_at
  rw [osc_eq hsh (by norm_num) depth sweep x.length]
  set lfo := lfoList depth sweep sh x.length 44100 with hlfo
  have hlen : lfo.length = x.length := lfoList_length depth sweep sh x.length 44100
  have hval : ∀ j, 0 ≤ lfo.getD j 0 := by
    intro j
    rcases Nat.lt_or_ge j lfo.length with hj | hj
    · have hmem : lfo.getD j 0 ∈ lfo := by
        rw [List.getD_eq_getElem?_getD, List.getElem?_eq_getElem hj]
        exact List.getElem_mem hj
      exact (lfoList_bounds hd sweep sh x.length 44100 _ hmem).1
    · rw [List.getD_eq_getElem?_getD, List.getElem?_eq_none (by omega)]
      simp
  obtain ⟨ys, hys⟩ : ∃ ys,
      mapE (flangerStep x lfo) (List.range x.length) = .ok ys := by
    apply mapE_ok_of_forall
    intro j hj
    exact flangerStep_ok_of_nonneg (List.mem_range.mp hj) (hval j)
  refine ⟨ys, hys, ?_⟩
  have h0 := mapE_ok_getD 0 (0 : ℝ) hys 0 (by simpa using hn)
  rw [List.getD_eq_getElem?_getD, List.getElem?_range hn] at h0
  simp only [Option.getD_some] at h0
  rw [flangerStep_zero hn (hval 0)] at h0
  have := h0.symm
  simp only [Except.ok.injEq] at this
  rw [this]
  ring

/-- Concrete instance of C5 at `x = [1]`, depth 0, sweep 0, shape `"sin"`. -/
theorem C5_witness :
    ("sin" ∈ shapes ∧ 0 ≤ (0 : ℝ) ∧ ([1] : List ℝ) ≠ []) ∧
      ∃ y, flanger_effect [1] 0 0 "sin" = .ok y ∧
        y.getD 0 0 = 2 * ([1] : List ℝ).getD 0 0 :=
  ⟨⟨by simp [shapes], le_rfl, by simp⟩,
    C5_flanger_first_sample [1] 0 0 "sin" (by simp [shapes]) le_rfl (by simp)⟩

/-- C1 is a code bug: the chorus docstring promises the mean of the
original signal plus all `N` modulated copies, but the per-voice loop
overwrites the shared output buffer and never divides by `N`, so only the
last voice's `x[n] + x[n - M_N[n]]` survives.  At `x = [1]`, two voices,
deterministic mode, depth 0, `maxsweep = 0` (both voice oscillators are the
all-zero `[0]`), the code returns `[2]` while the documented mean is
`[3/2]`. -/
theorem C1_chorus_overwrite_divergence :
    chorus_effect [1] 2 "deterministic" 0 "triangle" 0 [] = .ok [2] ∧
    chorusSpecMean [1] [[0], [0]] = [3 / 2] ∧ (2 : ℝ) ≠ 3 / 2 := by
  refine ⟨?_, ?_, by norm_num⟩
  · unfold chorus_effect chorus_effect_at
    rw [if_neg (by simp), if_pos rfl]
    have hls : linspace 0 0 2 = [0, 0] := by
      unfold linspace
      norm_num [List.range_succ]
    rw [hls]
    have hosc : low_frequency_oscillator 0 0 "triangle" ([1] : List ℝ).length 44100
        = .ok [0] := by
      rw [osc_eq (by simp [shapes]) (by norm_num) 0 0 _]
      norm_num [lfoList, linspace, oscAmp, List.range_succ]
    simp only [mapE]
    rw [hosc]
    norm_num [chorusVoices, mapE, chorusStep, npGet, truncInt, List.range_succ]
  · norm_num [chorusSpecMean, copySample, truncInt, npGet, List.range_succ]

end Snickle
